import Mathlib

/-!
Verification of the core concurrency-and-consistency subsystem of the
synapse-core fiat-gateway transaction processor, against its specification.

The definitions below are a shallow embedding of the Rust source:

* `src/src/services/processor.rs` — the background batch processor
  (`run_processor`, `process_batch`, `determine_transaction_status`);
* `src/src/services/lock_manager.rs` — the Redis-backed distributed lock
  (`Lock.release`, `Lock.renew`, `LockManager.with_lock`, `Lock.auto_renew_task`);
* `src/src/stellar/client.rs` — the Horizon ledger client and its
  circuit-breaker configuration and error mapping.

Database effects are modelled by explicit state passing over a list of
transaction rows; timestamps are naturals; the per-call trace of database
and network events is made explicit so that ordering properties
("commit before any ledger call", "sleep after the cycle") are statable.
-/

/-- A transaction row, with the columns selected by the claim query in
`process_batch` (src/src/services/processor.rs lines 35-47; field types from
`src/src/domain/transaction.rs`, statuses are the strings stored in the
`status` column: "pending" | "processing" | "completed" | "failed"). -/
structure Transaction where
  id : Nat
  stellar_account : String
  amount : Int
  asset_code : String
  status : String
  created_at : Nat
  updated_at : Nat
  anchor_transaction_id : Option String
  callback_type : Option String
  callback_status : Option String
  settlement_id : Option String
deriving DecidableEq, Repr

/-- Errors of the Horizon ledger client (src/src/stellar/client.rs lines 8-18). -/
inductive HorizonError where
  | RequestError (msg : String)
  | AccountNotFound (acct : String)
  | InvalidResponse (msg : String)
  | CircuitBreakerOpen
deriving DecidableEq, Repr

/-- One balance entry of a Horizon account (src/src/stellar/client.rs lines 33-40). -/
structure Balance where
  balance : String
  limit : Option String
  asset_type : String
  asset_code : Option String
  asset_issuer : Option String
deriving DecidableEq, Repr

/-- Response of the Horizon `/accounts` endpoint (src/src/stellar/client.rs lines 21-31). -/
structure AccountResponse where
  id : String
  account_id : String
  balances : List Balance
  sequence : String
  subentry_count : Int
  home_domain : Option String
  last_modified_ledger : Int
  last_modified_time : String
deriving DecidableEq, Repr

/-- Result of one `get_account` call. -/
abbrev HorizonResult := Except HorizonError AccountResponse

/-- The ledger, abstracted as a map from account address to the outcome the
Horizon client would return for it during this batch. -/
abbrev LedgerOracle := String → HorizonResult

/-- Literal embedding of `determine_transaction_status`
(src/src/services/processor.rs lines 95-100). -/
def determine_transaction_status (horizon_result : HorizonResult) : String :=
  match horizon_result with
  | .ok _ => "completed"
  | .error _ => "failed"

/-- Literal embedding of `is_valid_stellar_account`
(src/src/services/processor.rs lines 103-105); characters modelled as the
ASCII-alphanumeric test. -/
def is_valid_stellar_account (account : String) : Bool :=
  account.length = 56 && account.data.all (fun c => c.isAlphanum)

/-- Comparison used by `ORDER BY created_at ASC` in the claim query. -/
def createdLe (a b : Transaction) : Prop := a.created_at ≤ b.created_at

instance : DecidableRel createdLe := fun a b => Nat.decLe a.created_at b.created_at

instance : IsTotal Transaction createdLe := ⟨fun a b => Nat.le_total a.created_at b.created_at⟩

instance : IsTrans Transaction createdLe := ⟨fun _ _ _ h h' => Nat.le_trans h h'⟩

/-- The claim query of `process_batch` (src/src/services/processor.rs lines 35-47):
`SELECT ... FROM transactions WHERE status = 'pending' ORDER BY created_at ASC
LIMIT 10 FOR UPDATE SKIP LOCKED`, evaluated against a single-worker snapshot
of the table (row locking is irrelevant with one worker; the concurrent
semantics of SKIP LOCKED is modelled separately below). -/
def claim_query (db : List Transaction) : List Transaction :=
  (List.insertionSort createdLe (db.filter (fun t => t.status == "pending"))).take 10

/-- Observable database / network events of one processor cycle. -/
inductive DbEvent where
  | txBegin
  | select (rows : List Transaction)
  | updateProcessing (id : Nat) (now : Nat)
  | commit
  | ledgerCall (acct : String)
  | finalize (id : Nat) (st : String) (now : Nat)
  | sleepSecs (n : Nat)
deriving DecidableEq, Repr

/-- A committed `UPDATE transactions SET status = $st, updated_at = NOW()
WHERE id = $1`, applied to one row. -/
def applyWriteTx (i : Nat) (st : String) (now : Nat) (t : Transaction) : Transaction :=
  if t.id = i then { t with status := st, updated_at := now } else t

/-- The same UPDATE applied to the whole table. -/
def updateStatusById (i : Nat) (st : String) (now : Nat) (db : List Transaction) :
    List Transaction :=
  db.map (applyWriteTx i st now)

/-- The finalization loop of `process_batch` (src/src/services/processor.rs
lines 65-89): for each claimed row call `get_account`; `Ok` marks the row
completed, any `Err` marks it failed; each write goes directly to the pool. -/
def finalizeRows (oracle : LedgerOracle) (now : Nat) :
    List Transaction → List Transaction → List Transaction × List DbEvent
  | [], db => (db, [])
  | t :: rest, db =>
    match oracle t.stellar_account with
    | .ok _ =>
      let db1 := updateStatusById t.id "completed" now db
      let res := finalizeRows oracle now rest db1
      (res.1, .ledgerCall t.stellar_account :: .finalize t.id "completed" now :: res.2)
    | .error _ =>
      let db1 := updateStatusById t.id "failed" now db
      let res := finalizeRows oracle now rest db1
      (res.1, .ledgerCall t.stellar_account :: .finalize t.id "failed" now :: res.2)

/-- One `process_batch` call (src/src/services/processor.rs lines 30-92):
open a transaction, run the claim query; if empty, return; otherwise mark
every selected row processing, commit, then verify each row against the
ledger and finalize it. Returns the resulting table and the event trace. -/
def process_batch (oracle : LedgerOracle) (now : Nat) (db : List Transaction) :
    List Transaction × List DbEvent :=
  let pending := claim_query db
  if pending.isEmpty then
    (db, [.txBegin, .select pending])
  else
    let db1 := pending.foldl (fun d t => updateStatusById t.id "processing" now d) db
    let res := finalizeRows oracle now pending db1
    (res.1,
      .txBegin :: .select pending ::
        ((pending.map fun t => .updateProcessing t.id now) ++ .commit :: res.2))

/-- Poll interval of the processor loop (src/src/services/processor.rs line 13). -/
def POLL_INTERVAL_SECS : Nat := 5

/-- One iteration of the `run_processor` loop (src/src/services/processor.rs
lines 18-28): run `process_batch`, then sleep the poll interval. -/
def run_processor_cycle (oracle : LedgerOracle) (now : Nat) (db : List Transaction) :
    List Transaction × List DbEvent :=
  let res := process_batch oracle now db
  (res.1, res.2 ++ [.sleepSecs POLL_INTERVAL_SECS])

/-- The table after a sequence of processor cycles, each with its own ledger
oracle and clock value. -/
def runCycles (params : List (LedgerOracle × Nat)) (db : List Transaction) :
    List Transaction :=
  params.foldl (fun d p => (process_batch p.1 p.2 d).1) db

/-- One committed status write, as recorded in the event trace. -/
structure Write where
  id : Nat
  st : String
  now : Nat
deriving DecidableEq, Repr

/-- Apply a sequence of status writes to the table, in order. -/
def applyWrites (db : List Transaction) (W : List Write) : List Transaction :=
  W.foldl (fun d w => updateStatusById w.id w.st w.now d) db

/-- Cumulative effect of a sequence of status writes on a single row. -/
def applyAllW (W : List Write) (t : Transaction) : Transaction :=
  W.foldl (fun t w => applyWriteTx w.id w.st w.now t) t

/-- The status writes recorded in an event trace, in order. -/
def writesOf (evs : List DbEvent) : List Write :=
  evs.filterMap fun e =>
    match e with
    | .updateProcessing i n => some ⟨i, "processing", n⟩
    | .finalize i st n => some ⟨i, st, n⟩
    | _ => none

/-- The claim-phase write for a selected row. -/
def procWrite (now : Nat) (t : Transaction) : Write :=
  ⟨t.id, "processing", now⟩

/-- The finalization write for a claimed row, given the ledger outcome. -/
def finWrite (oracle : LedgerOracle) (now : Nat) (t : Transaction) : Write :=
  ⟨t.id, determine_transaction_status (oracle t.stellar_account), now⟩

/-- The status transitions the specification allows:
Pending→Processing and Processing→{Completed,Failed}. -/
def validTransition (s s' : String) : Prop :=
  (s = "pending" ∧ s' = "processing") ∨
    (s = "processing" ∧ (s' = "completed" ∨ s' = "failed"))

/-- A single write is legal in a table when every row it touches makes a
valid transition. -/
def legalWrite (db : List Transaction) (w : Write) : Prop :=
  ∀ u ∈ db, u.id = w.id → validTransition u.status w.st

/-- A sequence of writes is legal when each write is legal in the table
produced by the preceding writes. -/
def legalWrites : List Transaction → List Write → Prop
  | _, [] => True
  | db, w :: W => legalWrite db w ∧ legalWrites (updateStatusById w.id w.st w.now db) W

theorem applyWriteTx_id (i : Nat) (st : String) (now : Nat) (t : Transaction) :
    (applyWriteTx i st now t).id = t.id := by
  unfold applyWriteTx; split <;> rfl

theorem applyAllW_id (W : List Write) (t : Transaction) :
    (applyAllW W t).id = t.id := by
  induction W generalizing t with
  | nil => rfl
  | cons w W ih =>
    show (applyAllW W (applyWriteTx w.id w.st w.now t)).id = t.id
    rw [ih, applyWriteTx_id]

theorem applyAllW_of_not_mem (W : List Write) (t : Transaction)
    (h : ∀ w ∈ W, w.id ≠ t.id) : applyAllW W t = t := by
  induction W with
  | nil => rfl
  | cons w W ih =>
    show applyAllW W (applyWriteTx w.id w.st w.now t) = t
    have hw : applyWriteTx w.id w.st w.now t = t := by
      unfold applyWriteTx
      rw [if_neg]
      intro he
      exact h w (List.mem_cons_self _ _) he.symm
    rw [hw]
    exact ih fun w' hw' => h w' (List.mem_cons_of_mem _ hw')

theorem applyWrites_eq_map (W : List Write) (db : List Transaction) :
    applyWrites db W = db.map (applyAllW W) := by
  induction W generalizing db with
  | nil =>
    show db = db.map (fun t => t)
    exact (List.map_id' db).symm
  | cons w W ih =>
    show applyWrites (updateStatusById w.id w.st w.now db) W = _
    rw [ih, updateStatusById, List.map_map]
    rfl

theorem claim_query_length (db : List Transaction) :
    (claim_query db).length ≤ 10 :=
  List.length_take_le _ _

theorem claim_query_sorted (db : List Transaction) :
    List.Sorted createdLe (claim_query db) :=
  (List.sorted_insertionSort createdLe _).sublist (List.take_sublist _ _)

theorem claim_query_mem_status {db : List Transaction} {t : Transaction}
    (h : t ∈ claim_query db) : t.status = "pending" := by
  unfold claim_query at h
  have h1 := (List.take_sublist _ _).subset h
  rw [List.mem_insertionSort] at h1
  have := List.of_mem_filter h1
  simpa using this

theorem claim_query_subset {db : List Transaction} {t : Transaction}
    (h : t ∈ claim_query db) : t ∈ db := by
  unfold claim_query at h
  have h1 := (List.take_sublist _ _).subset h
  rw [List.mem_insertionSort] at h1
  exact List.mem_of_mem_filter h1

theorem claim_query_ids_nodup {db : List Transaction}
    (h : (db.map (fun t => t.id)).Nodup) :
    ((claim_query db).map (fun t => t.id)).Nodup := by
  have hfil : ((db.filter (fun t => t.status == "pending")).map (fun t => t.id)).Nodup :=
    ((List.filter_sublist _).map _).nodup h
  have hperm : List.Perm
      ((List.insertionSort createdLe
        (db.filter (fun t => t.status == "pending"))).map (fun t => t.id))
      ((db.filter (fun t => t.status == "pending")).map (fun t => t.id)) :=
    (List.perm_insertionSort _ _).map _
  have hsort := hperm.nodup_iff.mpr hfil
  exact ((List.take_sublist _ _).map _).nodup hsort

theorem determine_cases (r : HorizonResult) :
    determine_transaction_status r = "completed" ∨
      determine_transaction_status r = "failed" := by
  cases r with
  | ok _ => exact Or.inl rfl
  | error _ => exact Or.inr rfl

theorem finalizeRows_fst (oracle : LedgerOracle) (now : Nat) :
    ∀ (rows db : List Transaction),
      (finalizeRows oracle now rows db).1 =
        applyWrites db (rows.map (finWrite oracle now)) := by
  intro rows
  induction rows with
  | nil => intro db; rfl
  | cons t rest ih =>
    intro db
    cases h : oracle t.stellar_account with
    | ok a =>
      simp only [finalizeRows, h, ih]
      show applyWrites (updateStatusById t.id "completed" now db) _ =
        applyWrites db (finWrite oracle now t :: rest.map (finWrite oracle now))
      simp only [finWrite, h, determine_transaction_status]
      rfl
    | error e =>
      simp only [finalizeRows, h, ih]
      show applyWrites (updateStatusById t.id "failed" now db) _ =
        applyWrites db (finWrite oracle now t :: rest.map (finWrite oracle now))
      simp only [finWrite, h, determine_transaction_status]
      rfl

theorem finalizeRows_snd (oracle : LedgerOracle) (now : Nat) :
    ∀ (rows db : List Transaction),
      (finalizeRows oracle now rows db).2 =
        rows.flatMap (fun t =>
          [.ledgerCall t.stellar_account,
           .finalize t.id (determine_transaction_status (oracle t.stellar_account)) now]) := by
  intro rows
  induction rows with
  | nil => intro db; rfl
  | cons t rest ih =>
    intro db
    cases h : oracle t.stellar_account with
    | ok a => simp [finalizeRows, h, ih, determine_transaction_status]
    | error e => simp [finalizeRows, h, ih, determine_transaction_status]

theorem writesOf_append (a b : List DbEvent) :
    writesOf (a ++ b) = writesOf a ++ writesOf b :=
  List.filterMap_append _ _ _

theorem writesOf_updates (S : List Transaction) (now : Nat) :
    writesOf (S.map fun t => .updateProcessing t.id now) = S.map (procWrite now) := by
  induction S with
  | nil => rfl
  | cons t rest ih =>
    simp only [List.map_cons, writesOf, List.filterMap_cons] at ih ⊢
    rw [ih]
    rfl

theorem writesOf_finTrace (oracle : LedgerOracle) (now : Nat) (S db : List Transaction) :
    writesOf (finalizeRows oracle now S db).2 = S.map (finWrite oracle now) := by
  rw [finalizeRows_snd]
  induction S with
  | nil => rfl
  | cons t rest ih =>
    simp only [List.flatMap_cons, writesOf, List.filterMap_append] at ih ⊢
    rw [ih]
    rfl

theorem foldl_mark_eq (now : Nat) :
    ∀ (S db : List Transaction),
      S.foldl (fun d t => updateStatusById t.id "processing" now d) db =
        applyWrites db (S.map (procWrite now)) := by
  intro S
  induction S with
  | nil => intro db; rfl
  | cons t rest ih => intro db; exact ih _

theorem process_batch_fst (oracle : LedgerOracle) (now : Nat) (db : List Transaction) :
    (process_batch oracle now db).1 =
      applyWrites db
        ((claim_query db).map (procWrite now) ++ (claim_query db).map (finWrite oracle now)) := by
  unfold process_batch
  by_cases h : (claim_query db).isEmpty
  · rw [if_pos h]
    rw [List.isEmpty_iff] at h
    simp [h, applyWrites]
  · rw [if_neg h]
    simp only [foldl_mark_eq, finalizeRows_fst]
    conv_rhs => rw [applyWrites, List.foldl_append]
    rfl

theorem process_batch_snd_of_ne (oracle : LedgerOracle) (now : Nat) (db : List Transaction)
    (h : claim_query db ≠ []) :
    (process_batch oracle now db).2 =
      .txBegin :: .select (claim_query db) ::
        (((claim_query db).map fun t => .updateProcessing t.id now) ++
          .commit :: (finalizeRows oracle now (claim_query db)
            (applyWrites db ((claim_query db).map (procWrite now)))).2) := by
  unfold process_batch
  rw [if_neg (by simpa [List.isEmpty_iff] using h)]
  simp only [foldl_mark_eq]

theorem writesOf_process_batch (oracle : LedgerOracle) (now : Nat) (db : List Transaction) :
    writesOf (process_batch oracle now db).2 =
      (claim_query db).map (procWrite now) ++ (claim_query db).map (finWrite oracle now) := by
  by_cases h : claim_query db = []
  · unfold process_batch
    rw [if_pos (by simpa [List.isEmpty_iff] using h)]
    simp [writesOf, h]
  · rw [process_batch_snd_of_ne oracle now db h]
    show writesOf ([DbEvent.txBegin, DbEvent.select (claim_query db)] ++ _) = _
    rw [writesOf_append]
    have h0 : writesOf [DbEvent.txBegin, DbEvent.select (claim_query db)] = [] := rfl
    rw [h0]
    show writesOf (_ ++ DbEvent.commit :: _) = _
    rw [writesOf_append, writesOf_updates]
    show _ ++ writesOf (DbEvent.commit :: _) = _
    have h1 : writesOf (DbEvent.commit :: (finalizeRows oracle now (claim_query db)
        (applyWrites db ((claim_query db).map (procWrite now)))).2) =
        writesOf (finalizeRows oracle now (claim_query db)
          (applyWrites db ((claim_query db).map (procWrite now)))).2 := rfl
    rw [h1, writesOf_finTrace]

theorem applyAllW_procWrites (S : List Transaction) (now : Nat) (v : Transaction) :
    applyAllW (S.map (procWrite now)) v =
      if v.id ∈ S.map (fun t => t.id) then
        { v with status := "processing", updated_at := now }
      else v := by
  induction S generalizing v with
  | nil => rfl
  | cons t rest ih =>
    show applyAllW (rest.map (procWrite now)) (applyWriteTx t.id "processing" now v) = _
    by_cases h : v.id = t.id
    · have hv : applyWriteTx t.id "processing" now v =
          { v with status := "processing", updated_at := now } := by
        unfold applyWriteTx; rw [if_pos h]
      have hmem : v.id ∈ (t :: rest).map (fun t => t.id) := by simp [h]
      rw [hv, ih, if_pos hmem]
      split <;> rfl
    · have hv : applyWriteTx t.id "processing" now v = v := by
        unfold applyWriteTx; rw [if_neg h]
      rw [hv, ih]
      by_cases h2 : v.id ∈ rest.map (fun t => t.id)
      · rw [if_pos h2, if_pos (by simp [h2])]
      · rw [if_neg h2, if_neg (by simp [h, h2])]

theorem nodup_id_inj {db : List Transaction} (h : (db.map (fun t => t.id)).Nodup)
    {u v : Transaction} (hu : u ∈ db) (hv : v ∈ db) (hid : u.id = v.id) : u = v :=
  List.inj_on_of_nodup_map h hu hv hid

theorem cycle_write_ids {oracle : LedgerOracle} {now : Nat} {db : List Transaction} {w : Write}
    (hw : w ∈ (claim_query db).map (procWrite now) ++ (claim_query db).map (finWrite oracle now)) :
    ∃ r ∈ claim_query db, w.id = r.id := by
  rcases List.mem_append.mp hw with h | h <;>
    rcases List.mem_map.mp h with ⟨r, hr, rfl⟩ <;> exact ⟨r, hr, rfl⟩

theorem nonpending_writes_ne {oracle : LedgerOracle} {now : Nat} {db : List Transaction}
    (hnd : (db.map (fun t => t.id)).Nodup) {t : Transaction}
    (ht : t ∈ db) (hs : t.status ≠ "pending") :
    ∀ w ∈ (claim_query db).map (procWrite now) ++ (claim_query db).map (finWrite oracle now),
      w.id ≠ t.id := by
  intro w hw heq
  obtain ⟨r, hrS, hrid⟩ := cycle_write_ids hw
  have hrt : r = t :=
    nodup_id_inj hnd (claim_query_subset hrS) ht (hrid.symm.trans heq)
  exact hs (hrt ▸ claim_query_mem_status hrS)

theorem nonpending_fixed_batch (oracle : LedgerOracle) (now : Nat) {db : List Transaction}
    (hnd : (db.map (fun t => t.id)).Nodup) {t : Transaction}
    (ht : t ∈ db) (hs : t.status ≠ "pending") :
    applyAllW ((claim_query db).map (procWrite now) ++
      (claim_query db).map (finWrite oracle now)) t = t :=
  applyAllW_of_not_mem _ _ (nonpending_writes_ne hnd ht hs)

theorem process_batch_ids (oracle : LedgerOracle) (now : Nat) (db : List Transaction) :
    ((process_batch oracle now db).1).map (fun t => t.id) = db.map (fun t => t.id) := by
  rw [process_batch_fst, applyWrites_eq_map, List.map_map]
  exact List.map_congr_left fun a _ => applyAllW_id _ _

theorem nonpending_mem_batch (oracle : LedgerOracle) (now : Nat) {db : List Transaction}
    (hnd : (db.map (fun t => t.id)).Nodup) {t : Transaction}
    (ht : t ∈ db) (hs : t.status ≠ "pending") :
    t ∈ (process_batch oracle now db).1 := by
  rw [process_batch_fst, applyWrites_eq_map]
  have hfix := nonpending_fixed_batch oracle now hnd ht hs
  exact hfix ▸ List.mem_map_of_mem _ ht

theorem nonpending_unique_batch (oracle : LedgerOracle) (now : Nat) {db : List Transaction}
    (hnd : (db.map (fun t => t.id)).Nodup) {t : Transaction}
    (ht : t ∈ db) (hs : t.status ≠ "pending") :
    ∀ v ∈ (process_batch oracle now db).1, v.id = t.id → v = t := by
  intro v hv hvid
  rw [process_batch_fst, applyWrites_eq_map] at hv
  obtain ⟨u, hu, rfl⟩ := List.mem_map.mp hv
  have huid : u.id = t.id := (applyAllW_id _ u).symm.trans hvid
  have hut : u = t := nodup_id_inj hnd hu ht huid
  subst hut
  exact nonpending_fixed_batch oracle now hnd hu hs

theorem nonpending_fixed_cycles :
    ∀ (params : List (LedgerOracle × Nat)) (db : List Transaction) (t : Transaction),
      (db.map (fun u => u.id)).Nodup → t ∈ db → t.status ≠ "pending" →
      t ∈ runCycles params db ∧ ((runCycles params db).map (fun u => u.id)).Nodup ∧
        ∀ v ∈ runCycles params db, v.id = t.id → v = t := by
  intro params
  induction params with
  | nil =>
    intro db t hnd ht _
    exact ⟨ht, hnd, fun v hv hvid => nodup_id_inj hnd hv ht hvid⟩
  | cons p ps ih =>
    intro db t hnd ht hs
    have h1 : runCycles (p :: ps) db = runCycles ps (process_batch p.1 p.2 db).1 := rfl
    have hnd' : (((process_batch p.1 p.2 db).1).map (fun u => u.id)).Nodup := by
      rw [process_batch_ids]; exact hnd
    have ht' := nonpending_mem_batch p.1 p.2 hnd ht hs
    rw [h1]
    exact ih _ t hnd' ht' hs

theorem legalWrites_append :
    ∀ (W1 W2 : List Write) (db : List Transaction),
      legalWrites db W1 → legalWrites (applyWrites db W1) W2 → legalWrites db (W1 ++ W2) := by
  intro W1
  induction W1 with
  | nil => intro W2 db _ h2; exact h2
  | cons w W ih =>
    intro W2 db h1 h2
    exact ⟨h1.1, ih W2 _ h1.2 h2⟩

theorem legal_mark (now : Nat) :
    ∀ (S db : List Transaction),
      ((S.map (fun t => t.id)).Nodup) →
      (∀ r ∈ S, ∀ u ∈ db, u.id = r.id → u.status = "pending") →
      legalWrites db (S.map (procWrite now)) := by
  intro S
  induction S with
  | nil => intro db _ _; trivial
  | cons r rest ih =>
    intro db hnd hp
    rw [List.map_cons] at hnd
    obtain ⟨hhead, hnd'⟩ := List.nodup_cons.mp hnd
    refine ⟨?_, ?_⟩
    · intro u hu hid
      exact Or.inl ⟨hp r (List.mem_cons_self _ _) u hu hid, rfl⟩
    · apply ih _ hnd'
      intro r' hr' u hu hid
      obtain ⟨v, hv, rfl⟩ := List.mem_map.mp hu
      have hvid : v.id = r'.id := (applyWriteTx_id _ _ _ v).symm.trans hid
      have hne : v.id ≠ r.id := by
        intro he
        exact hhead (by rw [← he, hvid]; exact List.mem_map_of_mem _ hr')
      have hfix : applyWriteTx (procWrite now r).id (procWrite now r).st
          (procWrite now r).now v = v := by
        unfold applyWriteTx
        rw [show (procWrite now r).id = r.id from rfl, if_neg hne]
      rw [hfix]
      exact hp r' (List.mem_cons_of_mem _ hr') v hv hvid

theorem legal_fin (oracle : LedgerOracle) (now : Nat) :
    ∀ (S db : List Transaction),
      ((S.map (fun t => t.id)).Nodup) →
      (∀ r ∈ S, ∀ u ∈ db, u.id = r.id → u.status = "processing") →
      legalWrites db (S.map (finWrite oracle now)) := by
  intro S
  induction S with
  | nil => intro db _ _; trivial
  | cons r rest ih =>
    intro db hnd hp
    rw [List.map_cons] at hnd
    obtain ⟨hhead, hnd'⟩ := List.nodup_cons.mp hnd
    refine ⟨?_, ?_⟩
    · intro u hu hid
      exact Or.inr ⟨hp r (List.mem_cons_self _ _) u hu hid,
        determine_cases (oracle r.stellar_account)⟩
    · apply ih _ hnd'
      intro r' hr' u hu hid
      obtain ⟨v, hv, rfl⟩ := List.mem_map.mp hu
      have hvid : v.id = r'.id := (applyWriteTx_id _ _ _ v).symm.trans hid
      have hne : v.id ≠ r.id := by
        intro he
        exact hhead (by rw [← he, hvid]; exact List.mem_map_of_mem _ hr')
      have hfix : applyWriteTx (finWrite oracle now r).id
          (finWrite oracle now r).st (finWrite oracle now r).now v = v := by
        unfold applyWriteTx
        rw [show (finWrite oracle now r).id = r.id from rfl, if_neg hne]
      rw [hfix]
      exact hp r' (List.mem_cons_of_mem _ hr') v hv hvid

theorem marked_processing (now : Nat) {S db : List Transaction} :
    ∀ r ∈ S, ∀ u ∈ applyWrites db (S.map (procWrite now)), u.id = r.id →
      u.status = "processing" := by
  intro r hr u hu hid
  rw [applyWrites_eq_map] at hu
  obtain ⟨v, hv, rfl⟩ := List.mem_map.mp hu
  have hvid : v.id = r.id := (applyAllW_id _ v).symm.trans hid
  have hmem : v.id ∈ S.map (fun t => t.id) := by
    rw [hvid]; exact List.mem_map_of_mem _ hr
  rw [applyAllW_procWrites, if_pos hmem]

theorem claim_rows_pending {db : List Transaction} (hnd : (db.map (fun t => t.id)).Nodup) :
    ∀ r ∈ claim_query db, ∀ u ∈ db, u.id = r.id → u.status = "pending" := by
  intro r hr u hu hid
  have hur : u = r := nodup_id_inj hnd hu (claim_query_subset hr) hid
  rw [hur]
  exact claim_query_mem_status hr

theorem applyAllW_append (W1 W2 : List Write) (t : Transaction) :
    applyAllW (W1 ++ W2) t = applyAllW W2 (applyAllW W1 t) :=
  List.foldl_append _ _ _ _

theorem applyAllW_finWrites (oracle : LedgerOracle) (now : Nat) :
    ∀ (S : List Transaction), (S.map (fun t => t.id)).Nodup →
      ∀ t ∈ S, ∀ v : Transaction, v.id = t.id →
        applyAllW (S.map (finWrite oracle now)) v =
          { v with status := determine_transaction_status (oracle t.stellar_account),
                   updated_at := now } := by
  intro S
  induction S with
  | nil => intro _ t ht; exact absurd ht (List.not_mem_nil t)
  | cons r rest ih =>
    intro hnd t ht v hvid
    rw [List.map_cons] at hnd
    obtain ⟨hhead, hnd'⟩ := List.nodup_cons.mp hnd
    rcases List.mem_cons.mp ht with rfl | htr
    · show applyAllW (rest.map (finWrite oracle now))
        (applyWriteTx (finWrite oracle now t).id (finWrite oracle now t).st
          (finWrite oracle now t).now v) = _
      have hv : applyWriteTx (finWrite oracle now t).id (finWrite oracle now t).st
          (finWrite oracle now t).now v =
          { v with status := determine_transaction_status (oracle t.stellar_account),
                   updated_at := now } := by
        unfold applyWriteTx
        rw [show (finWrite oracle now t).id = t.id from rfl, if_pos hvid]
        rfl
      rw [hv]
      apply applyAllW_of_not_mem
      intro w hw heq
      obtain ⟨r', hr', rfl⟩ := List.mem_map.mp hw
      apply hhead
      have hrid : r'.id = v.id := heq
      rw [← hvid, ← hrid]
      exact List.mem_map_of_mem _ hr'
    · have hne : v.id ≠ r.id := by
        intro he
        apply hhead
        rw [← he, hvid]
        exact List.mem_map_of_mem _ htr
      show applyAllW (rest.map (finWrite oracle now))
        (applyWriteTx (finWrite oracle now r).id (finWrite oracle now r).st
          (finWrite oracle now r).now v) = _
      have hv : applyWriteTx (finWrite oracle now r).id (finWrite oracle now r).st
          (finWrite oracle now r).now v = v := by
        unfold applyWriteTx
        rw [show (finWrite oracle now r).id = r.id from rfl, if_neg hne]
      rw [hv]
      exact ih hnd' t htr v hvid

/-- A concrete Horizon account used in witnesses. -/
def exAccount : AccountResponse :=
  ⟨"GA", "GA", [], "1", 0, none, 1, "2023-01-01T00:00:00Z"⟩

/-- A ledger on which every account verifies. -/
def exOracleOk : LedgerOracle := fun _ => .ok exAccount

/-- A ledger on which every account fails verification. -/
def exOracleErr : LedgerOracle := fun _ => .error (.AccountNotFound "GA")

/-- A concrete transaction row used in witnesses. -/
def exRow (i : Nat) (st : String) : Transaction :=
  ⟨i, "GA", 100, "USDC", st, i, 0, none, none, none, none⟩

/-- A concrete table with one pending and one completed row. -/
def exDb : List Transaction := [exRow 0 "pending", exRow 1 "completed"]

/-- A concrete table with one processing and one pending row. -/
def exDbP : List Transaction := [exRow 0 "processing", exRow 1 "pending"]

/-- C1: the batch processor only ever performs the transitions
Pending→Processing (claim) and Processing→Completed/Failed (finalization):
every status write in a cycle's trace is one of these two transitions from
the written row's current status; a Completed or Failed row is never
selected by the claim query, and across any sequence of later processing
cycles a terminal row remains in the table unchanged — no transaction is
observed transitioning away from a terminal state. -/
theorem processor_transitions_monotonic (oracle : LedgerOracle) (now : Nat)
    (db : List Transaction) (hnd : (db.map (fun t => t.id)).Nodup) :
    legalWrites db (writesOf (process_batch oracle now db).2) ∧
    (∀ t ∈ db, t.status = "completed" ∨ t.status = "failed" → t ∉ claim_query db) ∧
    (∀ params t, t ∈ db → t.status = "completed" ∨ t.status = "failed" →
      t ∈ runCycles params db ∧ ∀ v ∈ runCycles params db, v.id = t.id → v = t) := by
  refine ⟨?_, ?_, ?_⟩
  · rw [writesOf_process_batch]
    have hS := claim_query_ids_nodup hnd
    apply legalWrites_append
    · exact legal_mark now _ db hS (claim_rows_pending hnd)
    · exact legal_fin oracle now _ _ hS (fun r hr u hu hid => marked_processing now r hr u hu hid)
  · intro t _ hterm hmem
    have hp := claim_query_mem_status hmem
    rcases hterm with h | h <;> rw [h] at hp <;> exact absurd hp (by decide)
  · intro params t ht hterm
    have hs : t.status ≠ "pending" := by
      rcases hterm with h | h <;> rw [h] <;> decide
    obtain ⟨h1, _, h3⟩ := nonpending_fixed_cycles params db t hnd ht hs
    exact ⟨h1, h3⟩

/-- Witness for C1 at a concrete table: the writes of one cycle over a table
holding a pending and a completed row are all legal transitions. -/
theorem processor_transitions_monotonic_witness :
    legalWrites exDb (writesOf (process_batch exOracleOk 7 exDb).2) :=
  (processor_transitions_monotonic exOracleOk 7 exDb (by decide)).1

/-- C10: a row whose status is processing at the start of a cycle is never
selected by the claim query (which filters on status = pending only) and is
left completely unchanged by that cycle and all later cycles, in which it is
never selected either — the processor has no requeue path for in-flight
rows. -/
theorem processing_rows_frame (params : List (LedgerOracle × Nat)) (db : List Transaction)
    (t : Transaction) (hnd : (db.map (fun u => u.id)).Nodup)
    (ht : t ∈ db) (hs : t.status = "processing") :
    t ∉ claim_query db ∧
    t ∈ runCycles params db ∧
    (∀ v ∈ runCycles params db, v.id = t.id → v = t) ∧
    t ∉ claim_query (runCycles params db) := by
  have hs' : t.status ≠ "pending" := by rw [hs]; decide
  obtain ⟨h1, _, h3⟩ := nonpending_fixed_cycles params db t hnd ht hs'
  refine ⟨fun hmem => hs' (claim_query_mem_status hmem), h1, h3,
    fun hmem => hs' (claim_query_mem_status hmem)⟩

/-- Witness for C10 at a concrete table: the processing row survives a
cycle untouched and is never claimed. -/
theorem processing_rows_frame_witness :
    exRow 0 "processing" ∉ claim_query exDbP ∧
    exRow 0 "processing" ∈ runCycles [(exOracleOk, 3)] exDbP ∧
    (∀ v ∈ runCycles [(exOracleOk, 3)] exDbP,
      v.id = (exRow 0 "processing").id → v = exRow 0 "processing") ∧
    exRow 0 "processing" ∉ claim_query (runCycles [(exOracleOk, 3)] exDbP) :=
  processing_rows_frame [(exOracleOk, 3)] exDbP (exRow 0 "processing")
    (by decide) (by decide) (by decide)

/-- C4: every claimed row is finalized to exactly
`determine_transaction_status` of its ledger result — completed when
`get_account` returns Ok, failed on any error (the circuit-breaker-open
error included) — with its `updated_at` refreshed; the finalization is
per-row, so a ledger failure on one row never prevents the other claimed
rows from being finalized (the statement is universal over the batch for
every oracle, including oracles failing on any subset of accounts). -/
theorem finalize_status_matches_ledger (oracle : LedgerOracle) (now : Nat)
    (db : List Transaction) (hnd : (db.map (fun t => t.id)).Nodup) :
    (∀ t ∈ claim_query db, ∀ u ∈ (process_batch oracle now db).1, u.id = t.id →
      u.status = determine_transaction_status (oracle t.stellar_account) ∧
        u.updated_at = now) ∧
    (∀ r : HorizonResult, determine_transaction_status r = "completed" ↔ ∃ a, r = .ok a) ∧
    determine_transaction_status (.error .CircuitBreakerOpen) = "failed" := by
  refine ⟨?_, ?_, rfl⟩
  · intro t htS u hu hid
    rw [process_batch_fst, applyWrites_eq_map] at hu
    obtain ⟨v, hv, rfl⟩ := List.mem_map.mp hu
    have hvid : v.id = t.id := (applyAllW_id _ v).symm.trans hid
    have hvt : v = t := nodup_id_inj hnd hv (claim_query_subset htS) hvid
    subst hvt
    have hS := claim_query_ids_nodup hnd
    rw [applyAllW_append, applyAllW_procWrites,
      if_pos (show v.id ∈ (claim_query db).map (fun t => t.id) from
        List.mem_map_of_mem _ htS)]
    have hfin := applyAllW_finWrites oracle now (claim_query db) hS v htS
      ({ v with status := "processing", updated_at := now }) rfl
    rw [hfin]
    exact ⟨rfl, rfl⟩
  · intro r
    cases r with
    | ok a => simp [determine_transaction_status]
    | error e =>
      simp only [determine_transaction_status]
      constructor
      · intro h; exact absurd h (by decide)
      · rintro ⟨a, h⟩; cases h

/-- The row of `exDb` claimed and finalized against the failing ledger. -/
def exFinRow : Transaction := { exRow 0 "pending" with status := "failed", updated_at := 9 }

/-- Witness for C4 at a concrete table with a failing ledger: the claimed
pending row ends failed with its timestamp refreshed. -/
theorem finalize_status_matches_ledger_witness :
    exFinRow.status = determine_transaction_status (exOracleErr (exRow 0 "pending").stellar_account) ∧
    exFinRow.updated_at = 9 :=
  (finalize_status_matches_ledger exOracleErr 9 exDb (by decide)).1
    (exRow 0 "pending") (by decide) exFinRow (by decide) (by decide)

theorem claim_query_ne_nil {db : List Transaction}
    (hex : ∃ t ∈ db, t.status = "pending") : claim_query db ≠ [] := by
  obtain ⟨t, htdb, hts⟩ := hex
  have htf : t ∈ db.filter (fun t => t.status == "pending") :=
    List.mem_filter.mpr ⟨htdb, by simp [hts]⟩
  have hsortmem : t ∈ List.insertionSort createdLe
      (db.filter (fun t => t.status == "pending")) :=
    (List.mem_insertionSort _).mpr htf
  unfold claim_query
  intro hnil
  rcases List.take_eq_nil_iff.mp hnil with h | h
  · exact absurd h (by decide)
  · rw [h] at hsortmem
    exact List.not_mem_nil t hsortmem

theorem fin_trace_events (oracle : LedgerOracle) (now : Nat) (S db : List Transaction) :
    ∀ e ∈ (finalizeRows oracle now S db).2,
      (∃ a, e = DbEvent.ledgerCall a) ∨ ∃ i st n, e = DbEvent.finalize i st n := by
  intro e he
  rw [finalizeRows_snd] at he
  obtain ⟨t, _, hmem⟩ := List.mem_flatMap.mp he
  rcases List.mem_cons.mp hmem with h | h
  · exact Or.inl ⟨_, h⟩
  · rcases List.mem_singleton.mp h with rfl
    exact Or.inr ⟨_, _, _, rfl⟩

theorem not_mem_updates (S : List Transaction) (now : Nat) (x : DbEvent)
    (hx : ∀ i n, x ≠ DbEvent.updateProcessing i n) :
    x ∉ (S.map fun t => DbEvent.updateProcessing t.id now) := by
  intro h
  obtain ⟨t, _, he⟩ := List.mem_map.mp h
  exact hx t.id now he.symm

theorem not_mem_fin_trace (oracle : LedgerOracle) (now : Nat) (S db : List Transaction)
    (x : DbEvent) (hx1 : ∀ a, x ≠ DbEvent.ledgerCall a)
    (hx2 : ∀ i st n, x ≠ DbEvent.finalize i st n) :
    x ∉ (finalizeRows oracle now S db).2 := by
  intro h
  rcases fin_trace_events oracle now S db x h with ⟨a, ha⟩ | ⟨i, st, n, ha⟩
  · exact hx1 a ha
  · exact hx2 i st n ha

/-- C3: in every cycle with at least one pending row, the claim phase opens
one database transaction, selects at most 10 pending rows in created_at
ascending order, writes status = processing (with updated_at refreshed to
the cycle clock) for each selected row inside that transaction, and the
single commit precedes every ledger call: the trace is exactly txBegin,
select, the per-row updates, commit, then only ledger calls and finalize
writes. -/
theorem claim_phase_shape (oracle : LedgerOracle) (now : Nat) (db : List Transaction)
    (hex : ∃ t ∈ db, t.status = "pending") :
    claim_query db ≠ [] ∧
    (claim_query db).length ≤ 10 ∧
    (∀ t ∈ claim_query db, t.status = "pending") ∧
    List.Sorted createdLe (claim_query db) ∧
    ∃ tail,
      (process_batch oracle now db).2 =
        .txBegin :: .select (claim_query db) ::
          (((claim_query db).map fun t => .updateProcessing t.id now) ++
            .commit :: tail) ∧
      (∀ e ∈ tail, (∃ a, e = DbEvent.ledgerCall a) ∨
        ∃ i st n, e = DbEvent.finalize i st n) ∧
      (process_batch oracle now db).2.count .txBegin = 1 ∧
      (process_batch oracle now db).2.count .commit = 1 := by
  have hne := claim_query_ne_nil hex
  refine ⟨hne, claim_query_length db, fun t ht => claim_query_mem_status ht,
    claim_query_sorted db, ?_⟩
  refine ⟨(finalizeRows oracle now (claim_query db)
    (applyWrites db ((claim_query db).map (procWrite now)))).2,
    process_batch_snd_of_ne oracle now db hne, fin_trace_events oracle now _ _, ?_, ?_⟩
  · rw [process_batch_snd_of_ne oracle now db hne]
    have hU : List.count DbEvent.txBegin
        ((claim_query db).map fun t => DbEvent.updateProcessing t.id now) = 0 :=
      List.count_eq_zero.mpr (not_mem_updates _ _ _ (fun i n h => by cases h))
    have hF : List.count DbEvent.txBegin (finalizeRows oracle now (claim_query db)
        (applyWrites db ((claim_query db).map (procWrite now)))).2 = 0 :=
      List.count_eq_zero.mpr (not_mem_fin_trace oracle now _ _ _
        (fun a h => by cases h) (fun i st n h => by cases h))
    simp [List.count_cons, List.count_append, hU, hF]
  · rw [process_batch_snd_of_ne oracle now db hne]
    have hU : List.count DbEvent.commit
        ((claim_query db).map fun t => DbEvent.updateProcessing t.id now) = 0 :=
      List.count_eq_zero.mpr (not_mem_updates _ _ _ (fun i n h => by cases h))
    have hF : List.count DbEvent.commit (finalizeRows oracle now (claim_query db)
        (applyWrites db ((claim_query db).map (procWrite now)))).2 = 0 :=
      List.count_eq_zero.mpr (not_mem_fin_trace oracle now _ _ _
        (fun a h => by cases h) (fun i st n h => by cases h))
    simp [List.count_cons, List.count_append, hU, hF]

/-- Witness for C3 at a concrete table holding a pending row. -/
theorem claim_phase_shape_witness :
    claim_query exDb ≠ [] ∧
    (claim_query exDb).length ≤ 10 ∧
    (∀ t ∈ claim_query exDb, t.status = "pending") ∧
    List.Sorted createdLe (claim_query exDb) ∧
    ∃ tail,
      (process_batch exOracleOk 7 exDb).2 =
        .txBegin :: .select (claim_query exDb) ::
          (((claim_query exDb).map fun t => .updateProcessing t.id 7) ++
            .commit :: tail) ∧
      (∀ e ∈ tail, (∃ a, e = DbEvent.ledgerCall a) ∨
        ∃ i st n, e = DbEvent.finalize i st n) ∧
      (process_batch exOracleOk 7 exDb).2.count .txBegin = 1 ∧
      (process_batch exOracleOk 7 exDb).2.count .commit = 1 :=
  claim_phase_shape exOracleOk 7 exDb ⟨exRow 0 "pending", by decide, by decide⟩

/-- C5 counterexample: at a table with a pending row, the claimed batch is
nonempty and the iteration's trace nevertheless ends in the 5-second
poll-interval sleep — refuting the claim that a cycle with a non-empty
batch repeats without sleeping. -/
theorem sleep_after_nonempty_batch_cex :
    claim_query exDb ≠ [] ∧
    DbEvent.sleepSecs POLL_INTERVAL_SECS ∈ (run_processor_cycle exOracleOk 7 exDb).2 := by
  constructor
  · decide
  · exact List.mem_append_right _ (List.mem_singleton_self _)

/-- C5 (amended): the `run_processor` loop sleeps the fixed 5-second poll
interval after every cycle, whether or not the claimed batch was empty —
there is no fast path that skips the sleep after a non-empty batch. -/
theorem poll_sleep_every_cycle (oracle : LedgerOracle) (now : Nat) (db : List Transaction) :
    (run_processor_cycle oracle now db).2.getLast? =
      some (.sleepSecs POLL_INTERVAL_SECS) ∧ POLL_INTERVAL_SECS = 5 :=
  ⟨List.getLast?_concat _, rfl⟩

/-- State of the Redis coordination store: the value stored at each key and
its remaining TTL in seconds. -/
structure RedisStore where
  val : String → Option String
  ttl : String → Option Nat

/-- A held lock handle (src/src/services/lock_manager.rs lines 12-18; the
embedded client handle is irrelevant to the store semantics). -/
structure Lock where
  key : String
  token : String
  ttl : Nat
deriving DecidableEq, Repr

/-- The Lua compare-and-delete script of `Lock::release`
(src/src/services/lock_manager.rs lines 119-127): delete the key only when
the stored value equals the token; returns the number of keys deleted. -/
def releaseScript (key token : String) (s : RedisStore) : RedisStore × Int :=
  if s.val key = some token then
    ({ val := fun k => if k = key then none else s.val k,
       ttl := fun k => if k = key then none else s.ttl k }, 1)
  else (s, 0)

/-- Model of `Lock::release` (src/src/services/lock_manager.rs lines
115-137): run the compare-and-delete script, discard its integer result,
and return Ok. -/
def Lock.release (l : Lock) (s : RedisStore) : RedisStore × Except String Unit :=
  ((releaseScript l.key l.token s).1, .ok ())

/-- The Lua compare-and-extend script of `Lock::renew`
(src/src/services/lock_manager.rs lines 143-151): reset the key's TTL only
when the stored value equals the token; returns 1 on success, 0 otherwise. -/
def renewScript (key token : String) (ttlSecs : Nat) (s : RedisStore) : RedisStore × Int :=
  if s.val key = some token then
    ({ s with ttl := fun k => if k = key then some ttlSecs else s.ttl k }, 1)
  else (s, 0)

/-- Model of `Lock::renew` (src/src/services/lock_manager.rs lines 139-161):
run the script and return Ok of whether the result equals 1. -/
def Lock.renew (l : Lock) (s : RedisStore) : RedisStore × Except String Bool :=
  let r := renewScript l.key l.token l.ttl s
  (r.1, .ok (r.2 == 1))

/-- C6: release and renew are token-gated. When the stored value at the
lock's key differs from the possession token (key absent or re-acquired by
another holder), release leaves the store untouched and still returns Ok,
and renew leaves the store untouched and returns Ok false rather than an
error; when the stored value equals the token, release deletes the key
(touching no other key) and renew resets its TTL to the lock's TTL
(touching no value and no other key's TTL). -/
theorem release_renew_token_gated (l : Lock) (s : RedisStore) :
    (s.val l.key ≠ some l.token →
      (l.release s).1 = s ∧ (l.release s).2 = .ok () ∧
      (l.renew s).1 = s ∧ (l.renew s).2 = .ok false) ∧
    (s.val l.key = some l.token →
      ((l.release s).1).val l.key = none ∧ (l.release s).2 = .ok () ∧
      (∀ k, k ≠ l.key → ((l.release s).1).val k = s.val k ∧
        ((l.release s).1).ttl k = s.ttl k) ∧
      ((l.renew s).1).ttl l.key = some l.ttl ∧
      ((l.renew s).1).val = s.val ∧ (l.renew s).2 = .ok true ∧
      (∀ k, k ≠ l.key → ((l.renew s).1).ttl k = s.ttl k)) := by
  constructor
  · intro h
    refine ⟨?_, rfl, ?_, ?_⟩
    · show (releaseScript l.key l.token s).1 = s
      unfold releaseScript
      rw [if_neg h]
    · show (renewScript l.key l.token l.ttl s).1 = s
      unfold renewScript
      rw [if_neg h]
    · show Except.ok ((renewScript l.key l.token l.ttl s).2 == 1) = Except.ok false
      unfold renewScript
      rw [if_neg h]
      rfl
  · intro h
    have hrel : releaseScript l.key l.token s =
        ({ val := fun k => if k = l.key then none else s.val k,
           ttl := fun k => if k = l.key then none else s.ttl k }, 1) := by
      unfold releaseScript
      rw [if_pos h]
    have hren : renewScript l.key l.token l.ttl s =
        ({ s with ttl := fun k => if k = l.key then some l.ttl else s.ttl k }, 1) := by
      unfold renewScript
      rw [if_pos h]
    refine ⟨?_, rfl, ?_, ?_, ?_, ?_, ?_⟩
    · show ((releaseScript l.key l.token s).1).val l.key = none
      rw [hrel]
      simp
    · intro k hk
      show ((releaseScript l.key l.token s).1).val k = s.val k ∧
        ((releaseScript l.key l.token s).1).ttl k = s.ttl k
      rw [hrel]
      exact ⟨if_neg hk, if_neg hk⟩
    · show ((renewScript l.key l.token l.ttl s).1).ttl l.key = some l.ttl
      rw [hren]
      simp
    · show ((renewScript l.key l.token l.ttl s).1).val = s.val
      rw [hren]
    · show Except.ok ((renewScript l.key l.token l.ttl s).2 == 1) = Except.ok true
      rw [hren]
      rfl
    · intro k hk
      show ((renewScript l.key l.token l.ttl s).1).ttl k = s.ttl k
      rw [hren]
      exact if_neg hk

/-- A concrete store whose lock key is held by another token. -/
def exStore : RedisStore :=
  { val := fun k => if k = "lock:r" then some "tokB" else none,
    ttl := fun k => if k = "lock:r" then some 30 else none }

/-- A stale handle whose token no longer matches the store. -/
def exLockA : Lock := ⟨"lock:r", "tokA", 30⟩

/-- A handle whose token matches the store. -/
def exLockB : Lock := ⟨"lock:r", "tokB", 30⟩

/-- Witness for C6: the stale handle's release and renew leave the concrete
store untouched, returning Ok and Ok false respectively. -/
theorem release_renew_token_gated_witness :
    (exLockA.release exStore).1 = exStore ∧ (exLockA.release exStore).2 = .ok () ∧
    (exLockA.renew exStore).1 = exStore ∧ (exLockA.renew exStore).2 = .ok false :=
  (release_renew_token_gated exLockA exStore).1 (by decide)

/-- Events observed inside `with_lock`. -/
inductive WEvent where
  | bodyRun
  | released
deriving DecidableEq, Repr

/-- Model of `LockManager::with_lock` (src/src/services/lock_manager.rs
lines 86-111), parameterised by the outcomes of its three effectful calls:
the acquire attempt (an error, Ok none on acquisition timeout, or Ok of a
lock), the body future, and the release. Mirrors the source control flow:
an acquire error propagates, Ok none returns Ok none, otherwise the body
runs, release is invoked (its error propagating), and the body result is
returned as `result.map(Some)`. The event list records the body run and
the release invocation. -/
def with_lock (acqRes : Except String (Option Lock)) (bodyRes : Except String α)
    (relRes : Except String Unit) : Except String (Option α) × List WEvent :=
  match acqRes with
  | .error e => (.error e, [])
  | .ok none => (.ok none, [])
  | .ok (some _) =>
    match relRes with
    | .error e => (.error e, [.bodyRun, .released])
    | .ok _ => (Except.map some bodyRes, [.bodyRun, .released])

/-- C7: with_lock returns Ok none exactly when the acquire attempt timed
out; when a lock was acquired, the body runs exactly once and release is
always invoked afterwards — also when the body returned an error — and
(when release succeeds) the returned value is the body result wrapped in
Some, `result.map(Some)`; when acquisition timed out or failed, the body
never runs. -/
theorem with_lock_contract (acqRes : Except String (Option Lock))
    (bodyRes : Except String α) (relRes : Except String Unit) :
    ((with_lock acqRes bodyRes relRes).1 = .ok none ↔ acqRes = .ok none) ∧
    (∀ l, acqRes = .ok (some l) →
      (with_lock acqRes bodyRes relRes).2 = [.bodyRun, .released] ∧
      (relRes = .ok () →
        (with_lock acqRes bodyRes relRes).1 = Except.map some bodyRes)) ∧
    ((∃ e, acqRes = .error e) ∨ acqRes = .ok none →
      (with_lock acqRes bodyRes relRes).2 = []) := by
  refine ⟨?_, ?_, ?_⟩
  · cases acqRes with
    | error e => simp [with_lock]
    | ok o =>
      cases o with
      | none => simp [with_lock]
      | some l =>
        cases relRes with
        | error e => simp [with_lock]
        | ok u =>
          cases bodyRes with
          | error e => simp [with_lock, Except.map]
          | ok a => simp [with_lock, Except.map]
  · rintro l rfl
    cases relRes with
    | error e =>
      exact ⟨rfl, fun hok => by cases hok⟩
    | ok u =>
      exact ⟨rfl, fun _ => rfl⟩
  · rintro (⟨e, rfl⟩ | rfl) <;> rfl

/-- Witness for C7 at concrete outcomes: acquisition succeeded, the body
returned 42, release succeeded; the events are exactly one body run
followed by the release, and the result is Ok (some 42). -/
theorem with_lock_contract_witness :
    (with_lock (.ok (some exLockB)) (.ok 42) (.ok ())).2 = [.bodyRun, .released] ∧
    (with_lock (.ok (some exLockB)) (.ok 42) (.ok ())).1 = Except.map some (.ok 42) := by
  have h := (with_lock_contract (.ok (some exLockB)) (.ok 42) (.ok ())).2.1 exLockB rfl
  exact ⟨h.1, h.2 rfl⟩

/-- Events of the auto-renew background task. -/
inductive REvent where
  | sleep (secs : Nat)
  | renewCall
deriving DecidableEq, Repr

/-- Model of `Lock::auto_renew_task` (src/src/services/lock_manager.rs
lines 163-181), parameterised by the stream of outcomes that successive
renew calls would observe: each iteration sleeps half the TTL, calls renew,
continues only on Ok true and breaks on Ok false or any error. The outcome
list bounds the modelled execution; a fully-true stream runs through the
whole list. -/
def auto_renew_task (ttl : Nat) : List (Except String Bool) → List REvent
  | [] => []
  | r :: rest =>
    .sleep (ttl / 2) :: .renewCall ::
      (match r with
       | .ok true => auto_renew_task ttl rest
       | _ => [])

/-- Number of renew calls the task performs on a given outcome stream: one
per leading Ok true, plus the call that observes the first other outcome. -/
def renewAttempts : List (Except String Bool) → Nat
  | [] => 0
  | r :: rest =>
    (match r with
     | .ok true => renewAttempts rest
     | _ => 0) + 1

theorem auto_renew_closed (ttl : Nat) :
    ∀ outcomes, auto_renew_task ttl outcomes =
      (List.replicate (renewAttempts outcomes)
        [REvent.sleep (ttl / 2), REvent.renewCall]).flatten := by
  intro outcomes
  induction outcomes with
  | nil => rfl
  | cons r rest ih =>
    cases r with
    | error e => rfl
    | ok b =>
      cases b with
      | false => rfl
      | true =>
        show REvent.sleep (ttl / 2) :: REvent.renewCall :: auto_renew_task ttl rest = _
        rw [ih]
        show _ = (List.replicate (renewAttempts rest + 1) _).flatten
        rw [List.replicate_succ]
        rfl

theorem count_join_replicate (x : REvent) (l : List REvent) :
    ∀ n : Nat, ((List.replicate n l).flatten).count x = n * l.count x := by
  intro n
  induction n with
  | zero => rw [Nat.zero_mul]; rfl
  | succ m ih =>
    rw [List.replicate_succ]
    show (l ++ (List.replicate m l).flatten).count x = (m + 1) * l.count x
    rw [List.count_append, ih, Nat.add_mul, Nat.one_mul, Nat.add_comm]

theorem renewAttempts_first_failure :
    ∀ (outcomes : List (Except String Bool)) (i : Nat),
      (∀ j, j < i → outcomes.get? j = some (.ok true)) →
      (∃ r, outcomes.get? i = some r ∧ r ≠ .ok true) →
      renewAttempts outcomes = i + 1 := by
  intro outcomes
  induction outcomes with
  | nil =>
    intro i _ hfail
    obtain ⟨r, hr, _⟩ := hfail
    cases hr
  | cons r rest ih =>
    intro i hprev hfail
    cases i with
    | zero =>
      obtain ⟨r', hr', hne⟩ := hfail
      have : r = r' := by
        have h0 : (r :: rest).get? 0 = some r := rfl
        rw [h0] at hr'
        exact Option.some.inj hr'
      subst this
      cases r with
      | error e => rfl
      | ok b =>
        cases b with
        | false => rfl
        | true => exact absurd rfl hne
    | succ i' =>
      have h0 : r = .ok true := by
        have := hprev 0 (Nat.succ_pos _)
        exact Option.some.inj this
      subst h0
      show renewAttempts rest + 1 = i' + 1 + 1
      have hprev' : ∀ j, j < i' → rest.get? j = some (.ok true) :=
        fun j hj => hprev (j + 1) (Nat.succ_lt_succ hj)
      have hfail' : ∃ r, rest.get? i' = some r ∧ r ≠ .ok true := hfail
      rw [ih i' hprev' hfail']

/-- C8: the auto-renewal task sleeps half the lock's TTL before each renew
call and terminates the first time renew returns Ok false or an error:
when the first i outcomes are Ok true and outcome i is anything else, the
task performs exactly i + 1 renew calls — none after observing the failure
— and its whole event trace is i + 1 repetitions of sleep (ttl / 2)
followed by a renew call. -/
theorem auto_renew_stops_on_failure (ttl : Nat) (outcomes : List (Except String Bool))
    (i : Nat) (hprev : ∀ j, j < i → outcomes.get? j = some (.ok true))
    (hfail : ∃ r, outcomes.get? i = some r ∧ r ≠ .ok true) :
    (auto_renew_task ttl outcomes).count REvent.renewCall = i + 1 ∧
    auto_renew_task ttl outcomes =
      (List.replicate (i + 1) [REvent.sleep (ttl / 2), REvent.renewCall]).flatten := by
  have hA := renewAttempts_first_failure outcomes i hprev hfail
  have hclosed := auto_renew_closed ttl outcomes
  rw [hA] at hclosed
  refine ⟨?_, hclosed⟩
  rw [hclosed, count_join_replicate]
  simp [List.count_cons]

/-- Witness for C8: with outcomes true, false, true the task renews exactly
twice — the second call observes the false and stops. -/
theorem auto_renew_stops_on_failure_witness :
    (auto_renew_task 30 [.ok true, .ok false, .ok true]).count REvent.renewCall = 2 ∧
    auto_renew_task 30 [.ok true, .ok false, .ok true] =
      (List.replicate 2 [REvent.sleep (30 / 2), REvent.renewCall]).flatten :=
  auto_renew_stops_on_failure 30 [.ok true, .ok false, .ok true] 1
    (fun j hj => by
      have hj0 : j = 0 := Nat.lt_one_iff.mp hj
      subst hj0
      rfl)
    ⟨.ok false, rfl, fun h => Bool.noConfusion (Except.ok.inj h)⟩

/-- Modelled from the spec: the Closed / Open / HalfOpen circuit-breaker
state machine wrapped around the Horizon client. The implementation
delegates the state machine to the external `failsafe` crate
(`failure_policy::consecutive_failures` over `backoff::exponential`,
configured in src/src/stellar/client.rs lines 59-78), whose internals are
not part of this repository's sources; so the machine is modelled from the
specification: Closed counts consecutive failures and trips to Open at the
threshold; Open rejects calls without network I/O until its backoff has
elapsed, then admits a single probe (HalfOpen); probe success closes the
breaker, probe failure reopens it with the backoff doubled and capped. -/
inductive CBState where
  | closed (consecutiveFailures : Nat)
  | opened (openedAt : Nat) (backoff : Nat)
  | halfOpen (backoff : Nat)
deriving DecidableEq, Repr

/-- Circuit-breaker configuration: consecutive-failure threshold, initial
backoff, and backoff cap. -/
structure CBConfig where
  failure_threshold : Nat
  initial_backoff : Nat
  max_backoff : Nat
deriving DecidableEq, Repr

/-- The default configuration of `HorizonClient::new` /
`with_circuit_breaker_config` (src/src/stellar/client.rs lines 52-78):
threshold 5, exponential backoff starting at 10 seconds and capped at the
60-second reset timeout. -/
def defaultCBConfig : CBConfig := ⟨5, 10, 60⟩

/-- Modelled from the spec: whether a call attempt is admitted, and the
breaker state while the call (if admitted) is in flight. Closed admits;
Open admits a single probe only once the backoff has elapsed, moving to
HalfOpen so that concurrent attempts during the probe are rejected;
HalfOpen rejects. -/
def cbOnCallAttempt (s : CBState) (now : Nat) : Bool × CBState :=
  match s with
  | .closed f => (true, .closed f)
  | .opened t0 b => if t0 + b ≤ now then (true, .halfOpen b) else (false, .opened t0 b)
  | .halfOpen b => (false, .halfOpen b)

/-- Modelled from the spec: feed an admitted call's outcome back into the
breaker. Success closes it; a failure in Closed increments the consecutive
count and trips to Open at the threshold; a failed probe reopens with the
backoff doubled, capped at the maximum. -/
def cbOnResult (cfg : CBConfig) (s : CBState) (now : Nat) (success : Bool) : CBState :=
  match s with
  | .closed f =>
    if success then .closed 0
    else if cfg.failure_threshold ≤ f + 1 then .opened now cfg.initial_backoff
    else .closed (f + 1)
  | .halfOpen b =>
    if success then .closed 0
    else .opened now (min (2 * b) cfg.max_backoff)
  | .opened t0 b => .opened t0 b

/-- Model of `HorizonClient::get_account` (src/src/stellar/client.rs lines
81-105) over the modelled breaker: a rejected call returns the
CircuitBreakerOpen error without performing the network request
(`FailsafeError::Rejected` mapping); an admitted call performs the request
and returns its result (`FailsafeError::Inner` mapping), recording the
outcome in the breaker. The Bool reports whether the network request was
performed. -/
def get_account (cfg : CBConfig) (s : CBState) (now : Nat) (net : HorizonResult) :
    HorizonResult × CBState × Bool :=
  let att := cbOnCallAttempt s now
  if att.1 then
    match net with
    | .ok a => (.ok a, cbOnResult cfg att.2 now true, true)
    | .error e => (.error e, cbOnResult cfg att.2 now false, true)
  else (.error .CircuitBreakerOpen, att.2, false)

/-- The breaker state after a run of consecutive failing calls at a fixed
clock value. -/
def iterFail (cfg : CBConfig) (now : Nat) (e : HorizonError) :
    Nat → CBState → CBState
  | 0, s => s
  | n + 1, s => iterFail cfg now e n (get_account cfg s now (.error e)).2.1

/-- C9: after 5 consecutive failed calls from the closed state, the default
breaker is Open with the 10-second initial backoff; while the backoff has
not elapsed every call — whatever the network would return — fails fast
with CircuitBreakerOpen, performs no network request, and leaves the state
unchanged; once the backoff has elapsed the next call is admitted as a
single probe (the breaker moves to HalfOpen, where further calls during
the probe are still rejected without network I/O). -/
theorem circuit_breaker_opens_and_fails_fast (now0 : Nat) :
    iterFail defaultCBConfig now0 (.RequestError "boom") 5 (.closed 0) =
      .opened now0 10 ∧
    (∀ (now1 : Nat) (net : HorizonResult), now1 < now0 + 10 →
      get_account defaultCBConfig (.opened now0 10) now1 net =
        (.error .CircuitBreakerOpen, .opened now0 10, false)) ∧
    (∀ now1 : Nat, now0 + 10 ≤ now1 →
      cbOnCallAttempt (.opened now0 10) now1 = (true, .halfOpen 10) ∧
      ∀ net, (get_account defaultCBConfig (.opened now0 10) now1 net).2.2 = true) ∧
    (∀ (now2 : Nat) (net : HorizonResult),
      get_account defaultCBConfig (.halfOpen 10) now2 net =
        (.error .CircuitBreakerOpen, .halfOpen 10, false)) := by
  refine ⟨rfl, ?_, ?_, ?_⟩
  · intro now1 net h
    have hatt : cbOnCallAttempt (.opened now0 10) now1 = (false, .opened now0 10) := by
      simp only [cbOnCallAttempt]
      rw [if_neg (by omega)]
    unfold get_account
    rw [hatt]
    rfl
  · intro now1 h
    have hatt : cbOnCallAttempt (.opened now0 10) now1 = (true, .halfOpen 10) := by
      simp only [cbOnCallAttempt]
      rw [if_pos h]
    refine ⟨hatt, ?_⟩
    intro net
    unfold get_account
    rw [hatt]
    cases net <;> rfl
  · intro now2 net
    rfl

/-- Witness for C9: from closed, 5 failing calls at time 100 open the
breaker; a call at time 105 — before the 10-second backoff elapses — fails
fast with CircuitBreakerOpen and performs no network request even though
the network would have answered Ok. -/
theorem circuit_breaker_opens_and_fails_fast_witness :
    iterFail defaultCBConfig 100 (.RequestError "boom") 5 (.closed 0) =
      .opened 100 10 ∧
    get_account defaultCBConfig (.opened 100 10) 105 (.ok exAccount) =
      (.error .CircuitBreakerOpen, .opened 100 10, false) := by
  have h := circuit_breaker_opens_and_fails_fast 100
  exact ⟨h.1, h.2.1 105 (.ok exAccount) (by decide)⟩

/-- Modelled from the spec: shared state seen by N concurrent worker
instances running the claim query of `process_batch` against the same
transactions table. The claim query's row-locking semantics
(`FOR UPDATE SKIP LOCKED`) is implemented by PostgreSQL, not by this
repository's sources, so it is modelled from the specification: a claim
transaction selects only rows that are pending and not currently
row-locked by another in-flight claim, locking them; its commit publishes
status = processing and releases the row locks; finalization then works on
the committed batch. `status` maps a row id to its status string,
`lockedBy` to the worker holding its row lock, `inflight` maps a worker to
its uncommitted selection, `owned` to its committed, not yet finalized
batch. -/
structure CState where
  status : Nat → String
  lockedBy : Nat → Option Nat
  inflight : Nat → Option (List Nat)
  owned : Nat → List Nat

/-- Events of the concurrent claim model: a claim transaction's
select-and-lock, its commit, and the finalization of one owned row. -/
inductive CEvent where
  | claim (w : Nat) (rows : List Nat)
  | commitClaim (w : Nat)
  | finalizeRow (w : Nat) (r : Nat) (ok : Bool)
deriving DecidableEq, Repr


/-- Modelled from the spec: one interleaved step of the concurrent claim
protocol. A claim by worker w selects at most 10 distinct rows that are
pending and unlocked — SKIP LOCKED excludes rows locked by another
in-flight claim instead of blocking — and locks them; a commit publishes
status = processing for the claimed rows, unlocks them, and hands them to
the worker's finalization phase; finalizing an owned row sets its terminal
status. -/
inductive CStep : CState → CEvent → CState → Prop
  | claim (s : CState) (w : Nat) (rows : List Nat) :
      s.inflight w = none →
      s.owned w = [] →
      rows.Nodup →
      rows.length ≤ 10 →
      (∀ r ∈ rows, s.status r = "pending" ∧ s.lockedBy r = none) →
      CStep s (.claim w rows)
        { s with
          lockedBy := fun r => if r ∈ rows then some w else s.lockedBy r,
          inflight := fun w' => if w' = w then some rows else s.inflight w' }
  | commitClaim (s : CState) (w : Nat) (rows : List Nat) :
      s.inflight w = some rows →
      CStep s (.commitClaim w)
        { s with
          status := fun r => if r ∈ rows then "processing" else s.status r,
          lockedBy := fun r => if r ∈ rows then none else s.lockedBy r,
          inflight := fun w' => if w' = w then none else s.inflight w',
          owned := fun w' => if w' = w then rows else s.owned w' }
  | finalizeRow (s : CState) (w : Nat) (r : Nat) (ok : Bool) :
      r ∈ s.owned w →
      CStep s (.finalizeRow w r ok)
        { s with
          status := fun r' => if r' = r then (if ok then "completed" else "failed")
            else s.status r',
          owned := fun w' => if w' = w then (s.owned w).erase r else s.owned w' }

/-- An interleaved execution: a sequence of steps by arbitrary workers. -/
inductive CTrace : CState → List CEvent → CState → Prop
  | nil (s : CState) : CTrace s [] s
  | cons {s s1 s2 : CState} {e : CEvent} {evs : List CEvent} :
      CStep s e s1 → CTrace s1 evs s2 → CTrace s (e :: evs) s2

/-- The claim batches recorded in a trace, in order: claiming worker and
the rows in its result set. -/
def claimBatches (evs : List CEvent) : List (Nat × List Nat) :=
  evs.filterMap fun e =>
    match e with
    | .claim w rows => some (w, rows)
    | _ => none

/-- A row that is not claimable — not both pending and unlocked — never
becomes claimable again: claims only add locks, a commit unlocks only rows
it simultaneously marks processing, and finalization only writes terminal
statuses. -/
theorem not_claimable_preserved {s s1 : CState} {e : CEvent} (st : CStep s e s1)
    (q : Nat) (h : ¬(s.status q = "pending" ∧ s.lockedBy q = none)) :
    ¬(s1.status q = "pending" ∧ s1.lockedBy q = none) := by
  cases st with
  | claim w rows hinf hown hnd hlen hsel =>
    intro hc
    dsimp only at hc
    apply h
    refine ⟨hc.1, ?_⟩
    have hlock := hc.2
    by_cases hmem : q ∈ rows
    · rw [if_pos hmem] at hlock
      cases hlock
    · rwa [if_neg hmem] at hlock
  | commitClaim w rows hinf =>
    intro hc
    dsimp only at hc
    by_cases hmem : q ∈ rows
    · have h1 := hc.1
      rw [if_pos hmem] at h1
      exact absurd h1 (by decide)
    · apply h
      have h1 := hc.1
      have h2 := hc.2
      rw [if_neg hmem] at h1 h2
      exact ⟨h1, h2⟩
  | finalizeRow w r ok hmem =>
    intro hc
    dsimp only at hc
    by_cases hq : q = r
    · have h1 := hc.1
      rw [if_pos hq] at h1
      cases ok with
      | true => exact absurd h1 (by decide)
      | false => exact absurd h1 (by decide)
    · apply h
      have h1 := hc.1
      rw [if_neg hq] at h1
      exact ⟨h1, hc.2⟩

theorem claimBatches_mem {evs : List CEvent} {p : Nat × List Nat}
    (hp : p ∈ claimBatches evs) : CEvent.claim p.1 p.2 ∈ evs := by
  unfold claimBatches at hp
  obtain ⟨e, he, hsome⟩ := List.mem_filterMap.mp hp
  cases e with
  | claim w rows =>
    have : (w, rows) = p := Option.some.inj hsome
    rw [← this]
    exact he
  | commitClaim w => cases hsome
  | finalizeRow w r ok => cases hsome

theorem not_claimable_never_claimed {s s2 : CState} {evs : List CEvent}
    (tr : CTrace s evs s2) :
    ∀ q : Nat, ¬(s.status q = "pending" ∧ s.lockedBy q = none) →
      ∀ w rows, CEvent.claim w rows ∈ evs → q ∉ rows := by
  induction tr with
  | nil =>
    intro q _ w rows hmem
    exact absurd hmem (List.not_mem_nil _)
  | cons st tr ih =>
    intro q h w rows hmem hq
    rcases List.mem_cons.mp hmem with heq | hmem'
    · subst heq
      cases st with
      | claim w rows hinf hown hnd hlen hsel =>
        exact h (hsel q hq)
    · exact ih q (not_claimable_preserved st q h) w rows hmem' hq

/-- C2: over every interleaved execution of concurrent claim batches
against the same table — the SKIP LOCKED protocol modelled from the spec —
the recorded claim batches are pairwise disjoint: each pending row appears
in the result set of at most one batch, so no two worker instances ever
claim the same row. -/
theorem claim_batches_disjoint {s s2 : CState} {evs : List CEvent}
    (tr : CTrace s evs s2) :
    List.Pairwise (fun b1 b2 => ∀ q ∈ b1.2, q ∉ b2.2) (claimBatches evs) := by
  induction tr with
  | nil => exact List.Pairwise.nil
  | cons st tr ih =>
    cases st with
    | claim w rows hinf hown hnd hlen hsel =>
      show List.Pairwise _ ((w, rows) :: claimBatches _)
      refine List.pairwise_cons.mpr ⟨?_, ih⟩
      intro b hb q hq
      refine not_claimable_never_claimed tr q ?_ b.1 b.2 (claimBatches_mem hb)
      intro hc
      have hlock := hc.2
      dsimp only at hlock
      rw [if_pos hq] at hlock
      cases hlock
    | commitClaim w rows hinf => exact ih
    | finalizeRow w r ok hmem => exact ih

/-- A concrete initial state for the witness: rows 0-2 pending, everything
else completed; no locks, no in-flight claims. -/
def exCState : CState :=
  { status := fun r => if r < 3 then "pending" else "completed",
    lockedBy := fun _ => none,
    inflight := fun _ => none,
    owned := fun _ => [] }

/-- Witness for C2: a concrete interleaving in which worker 0 claims row 0
and worker 1 then claims rows 1 and 2 yields disjoint batches. -/
theorem claim_batches_disjoint_witness :
    List.Pairwise (fun b1 b2 => ∀ q ∈ b1.2, q ∉ b2.2)
      (claimBatches [.claim 0 [0], .claim 1 [1, 2]]) := by
  refine claim_batches_disjoint
    (CTrace.cons (CStep.claim exCState 0 [0] rfl rfl (by decide) (by decide) (by decide))
      (CTrace.cons (CStep.claim _ 1 [1, 2] (by decide) (by decide) (by decide) (by decide)
        (by decide))
        (CTrace.nil _)))
